import Mathlib

/-!
Verification of the nlp_hw sequence-tagging pipeline.

The notebook's data loading (`read_dataset`), inference-time test-file
writer, and the tag index maps (`tag_to_ix` / `idx_to_tag`) are embedded
directly from the notebook source.  Strings of the Python code are
modelled as `List Char`; a file is modelled as the list of its lines,
each line carrying its trailing newline character when the file has one
there, exactly as Python's file iteration yields them.

The span-evaluation subsystem (`evaluation.evaluate_f1_partial`) is not
part of the repository snapshot; its components are modelled from the
specification and are marked as such in their doc comments.
-/

/-- Python's whitespace characters (ASCII range), the set used by
`str.isspace` and `str.strip`. -/
def pyIsSpace (c : Char) : Bool :=
  c = ' ' || c = '\t' || c = '\n' || c = '\r' || c = '\x0b' || c = '\x0c'

/-- Python `str.isspace`: non-empty and every character is whitespace. -/
def lineIsSpace (l : List Char) : Bool :=
  !l.isEmpty && l.all pyIsSpace

/-- Python `str.strip`: drop whitespace characters from both ends. -/
def pyStrip (l : List Char) : List Char :=
  List.rdropWhile pyIsSpace (l.dropWhile pyIsSpace)

/-- Python `str.split` with separator a single tab: the fields between
the tab characters (an empty input gives one empty field, `k` tabs give
`k + 1` fields). -/
def splitTab : List Char → List (List Char)
  | [] => [[]]
  | c :: rest =>
    if c = '\t' then [] :: splitTab rest
    else
      match splitTab rest with
      | [] => [[c]]
      | h :: t => (c :: h) :: t

/-- Failure of `word, tag = line.split(splitter)` on a non-blank line:
Python raises a ValueError from tuple unpacking when the line does not
split into exactly two fields; the specification names this condition
`MalformedLineError`. -/
inductive ReadError where
  | MalformedLineError : List Char → ReadError
deriving DecidableEq

/-- A sentence as produced by `read_dataset`: the token list paired with
the tag list. -/
abbrev Sent := List (List Char) × List (List Char)

/-- Loop body of `read_dataset` (notebook cell 5).  `sentence` and
`tags` are the accumulators, kept in reverse order; a whitespace-only
line appends `(sentence, tags)` to the data unconditionally, a non-blank
line must split on tab into exactly a word and a tag, the word is kept
verbatim and the tag is stored stripped.  After the loop the function
returns the data as accumulated: nothing is flushed at end of input. -/
def readGo : List (List Char) → List (List Char) → List (List Char) →
    Except ReadError (List Sent)
  | [], _, _ => Except.ok []
  | line :: rest, sentence, tags =>
    if lineIsSpace line then
      match readGo rest [] [] with
      | Except.ok d => Except.ok ((sentence.reverse, tags.reverse) :: d)
      | Except.error e => Except.error e
    else
      match splitTab line with
      | [word, tag] => readGo rest (word :: sentence) (pyStrip tag :: tags)
      | _ => Except.error (ReadError.MalformedLineError line)

/-- `read_dataset` from notebook cell 5, on a file given as its list of
lines. -/
def read_dataset (lines : List (List Char)) : Except ReadError (List Sent) :=
  readGo lines [] []

/-- The lines the inference loop (notebook cell 16) writes for one
sentence: one `token TAB tag NEWLINE` line per token/tag pair of the
zip, followed by one blank line. -/
def writeSentence (toks tags : List (List Char)) : List (List Char) :=
  ((toks.zip tags).map (fun wt => wt.1 ++ '\t' :: (wt.2 ++ ['\n']))) ++ [['\n']]

/-- The whole file the inference loop writes: the per-sentence blocks
concatenated in order. -/
def writeData (data : List Sent) : List (List Char) :=
  data.flatMap (fun st => writeSentence st.1 st.2)

/-- The `tag_to_ix` dictionary of notebook cell 8, as an association
list in insertion order. -/
def tag_to_ix : List (String × ℕ) :=
  [("O", 0), ("B-Object", 1), ("I-Object", 2), ("B-Aspect", 3),
   ("I-Aspect", 4), ("B-Predicate", 5), ("I-Predicate", 6)]

/-- The `idx_to_tag` dictionary of notebook cell 8:
`dict(map(reversed, tag_to_ix.items()))`. -/
def idx_to_tag : List (ℕ × String) :=
  tag_to_ix.map (fun p => (p.2, p.1))

/-- Lookup in `tag_to_ix`. -/
def tagToIx (t : String) : Option ℕ :=
  tag_to_ix.lookup t

/-- Lookup in `idx_to_tag`, as done by `idx_to_tag[int(i)]` in the
inference loop. -/
def idxToTag (i : ℕ) : Option String :=
  idx_to_tag.lookup i

/-- The closed seven-element tag set: the keys of `tag_to_ix`. -/
def tagSet : List String :=
  tag_to_ix.map Prod.fst

/-- Modelled from the spec: the closed category set of the evaluation
subsystem (`evaluation.evaluate_f1_partial` is absent from the
repository snapshot). -/
inductive Cat where
  | Object
  | Aspect
  | Predicate
deriving DecidableEq, Repr

/-- Modelled from the spec: a BIO tag, `O`, `B-<cat>` or `I-<cat>`. -/
inductive Tag where
  | O
  | B : Cat → Tag
  | I : Cat → Tag
deriving DecidableEq, Repr

/-- Modelled from the spec: a span `(category, start, end)` with
inclusive 0-based token indices (`stop` is the spec's `end_index`). -/
structure Span where
  cat : Cat
  start : ℕ
  stop : ℕ
deriving DecidableEq, Repr

/-- Close the open span, if any, with `e` as its end index. -/
def closeAt (st : Option (Cat × ℕ)) (e : ℕ) : List Span :=
  match st with
  | none => []
  | some (c, s) => [⟨c, s, e⟩]

/-- Modelled from the spec (4.2): one step of the span-decoding scan at
token index `i`, given the open span state.  `O` closes any open span;
`B-<cat>` closes any open span and opens a new one at `i`; `I-<cat>`
extends an open span of the same category, and otherwise (dangling or
cross-category continuation) it acts like `B-<cat>`: any open span is
closed and a new span of category `<cat>` is opened at `i`.  Returns
the spans emitted by the step and the new open-span state. -/
def bioStep (st : Option (Cat × ℕ)) (t : Tag) (i : ℕ) :
    List Span × Option (Cat × ℕ) :=
  match t with
  | Tag.O => (closeAt st (i - 1), none)
  | Tag.B c => (closeAt st (i - 1), some (c, i))
  | Tag.I c =>
    match st with
    | none => ([], some (c, i))
    | some (c', s) =>
      if c' = c then ([], some (c', s))
      else (closeAt (some (c', s)) (i - 1), some (c, i))

/-- Modelled from the spec (4.2): the left-to-right scan decoding a tag
sequence into spans, starting at token index `i` with open-span state
`st`; at the end of the sequence any still-open span is closed. -/
def scan : List Tag → ℕ → Option (Cat × ℕ) → List Span
  | [], i, st => closeAt st (i - 1)
  | t :: rest, i, st =>
    (bioStep st t i).1 ++ scan rest (i + 1) (bioStep st t i).2

/-- Modelled from the spec (4.2): the Span Extractor on one sentence's
tag sequence. -/
def extractSpans (tags : List Tag) : List Span :=
  scan tags 0 none

/-- Modelled from the spec (4.2/8): re-encoding a sorted disjoint span
list into a tag sequence, walking from token index `i` up to `n`: `O`
up to the next span's start, `B` at its start, `I` to its end. -/
def encodeFrom : ℕ → ℕ → List Span → List Tag
  | i, n, [] => List.replicate (n - i) Tag.O
  | i, n, sp :: rest =>
    List.replicate (sp.start - i) Tag.O ++ [Tag.B sp.cat] ++
      List.replicate (sp.stop - sp.start) (Tag.I sp.cat) ++
      encodeFrom (sp.stop + 1) n rest

/-- Modelled from the spec (8): re-encode a span list as a tag sequence
of length `n`. -/
def encodeSpans (n : ℕ) (spans : List Span) : List Tag :=
  encodeFrom 0 n spans

/-- Whether tag `t` may follow when the previous token's span category
state is `st`: an `I-<cat>` is admissible only when `st` carries the
same category (otherwise it is a dangling or cross-category
continuation). -/
def okNext : Option Cat → Tag → Bool
  | _, Tag.O => true
  | _, Tag.B _ => true
  | none, Tag.I _ => false
  | some c', Tag.I c => c' = c

/-- The category state after reading tag `t`. -/
def stAfter : Tag → Option Cat
  | Tag.O => none
  | Tag.B c => some c
  | Tag.I c => some c

/-- A tag sequence is admissible from state `st` when no dangling or
cross-category `I-` continuation occurs. -/
def admissible : Option Cat → List Tag → Bool
  | _, [] => true
  | st, t :: rest => okNext st t && admissible (stAfter t) rest

/-- A valid tag sequence with no dangling `I-` tag: every `I-<cat>` is
immediately preceded by a `B-<cat>` or `I-<cat>` of the same
category. -/
def noDangling (tags : List Tag) : Bool :=
  admissible none tags

/-- Modelled from the spec (4.3, strict policy): matched strict pairs of
one category are exact duplicates pairing off one-to-one, so the strict
true-positive count for category `c` is the size of the multiset
intersection of the gold and predicted spans of that category. -/
def strictTP (g p : List Span) (c : Cat) : ℕ :=
  ((g.filter (fun sp => sp.cat = c)).bagInter
    (p.filter (fun sp => sp.cat = c))).length

/-- Number of tokens shared by the inclusive index ranges of two spans
(0 when disjoint). -/
def overlapLen (a b : Span) : ℕ :=
  min a.stop b.stop + 1 - max a.start b.start

/-- A candidate overlapping gold/predicted pair for the partial policy:
its overlap length, the two start indices, the two positional indices in
the gold and predicted span lists, and the shared category. -/
structure Cand where
  ov : ℕ
  gs : ℕ
  ps : ℕ
  ig : ℕ
  ip : ℕ
  c : Cat
deriving DecidableEq, Repr

/-- Modelled from the spec (4.3, partial policy): all candidate pairs,
a gold and a predicted span of the same category whose index ranges
overlap by at least one token. -/
def cands (g p : List Span) : List Cand :=
  g.enum.flatMap (fun ga =>
    p.enum.filterMap (fun pb =>
      if ga.2.cat = pb.2.cat ∧ 0 < overlapLen ga.2 pb.2 then
        some ⟨overlapLen ga.2 pb.2, ga.2.start, pb.2.start, ga.1, pb.1, ga.2.cat⟩
      else none))

/-- Modelled from the spec (4.3): candidate ordering — overlap length
descending, then gold start ascending, then predicted start
ascending. -/
def candLE (a b : Cand) : Bool :=
  b.ov < a.ov ||
    (a.ov = b.ov && (a.gs < b.gs || (a.gs = b.gs && a.ps ≤ b.ps)))

/-- Insertion into a `candLE`-sorted list. -/
def insertCand (x : Cand) : List Cand → List Cand
  | [] => [x]
  | y :: ys => if candLE x y then x :: y :: ys else y :: insertCand x ys

/-- Deterministic sort of the candidate pairs by `candLE`. -/
def sortCands (l : List Cand) : List Cand :=
  l.foldr insertCand []

/-- Modelled from the spec (4.3): greedy acceptance over the sorted
candidates — accept a pair when neither its gold index nor its
predicted index is already matched. -/
def greedy : List Cand → List ℕ → List ℕ → List Cand
  | [], _, _ => []
  | x :: rest, ug, up =>
    if ug.contains x.ig || up.contains x.ip then greedy rest ug up
    else x :: greedy rest (x.ig :: ug) (x.ip :: up)

/-- Modelled from the spec (4.3, partial policy): the true-positive
count for category `c` is the number of greedily accepted overlapping
pairs of that category. -/
def lenientTP (g p : List Span) (c : Cat) : ℕ :=
  (greedy (sortCands (cands g p)) [] []).countP (fun x => x.c = c)

/-- Number of spans of category `c` in a span list. -/
def countCat (spans : List Span) (c : Cat) : ℕ :=
  spans.countP (fun sp => sp.cat = c)

/-- The two matching policies; `lenient` is the spec's partial
policy. -/
inductive Pol where
  | strict
  | lenient
deriving DecidableEq, Repr

/-- Modelled from the spec (4.3): matched (true-positive) count of one
sentence for one category under one policy. -/
def sentTP (pol : Pol) (gt pt : List Tag) (c : Cat) : ℕ :=
  match pol with
  | Pol.strict => strictTP (extractSpans gt) (extractSpans pt) c
  | Pol.lenient => lenientTP (extractSpans gt) (extractSpans pt) c

/-- Unmatched predicted spans of one sentence for one category
(false positives). -/
def sentFP (pol : Pol) (gt pt : List Tag) (c : Cat) : ℕ :=
  countCat (extractSpans pt) c - sentTP pol gt pt c

/-- Unmatched gold spans of one sentence for one category
(false negatives). -/
def sentFN (pol : Pol) (gt pt : List Tag) (c : Cat) : ℕ :=
  countCat (extractSpans gt) c - sentTP pol gt pt c

/-- The fixed category enumeration, in the lowercased order of the
reference report. -/
def catList : List Cat :=
  [Cat.Aspect, Cat.Object, Cat.Predicate]

/-- Per-category corpus total of true positives: the per-sentence
counts summed over the zipped gold/predicted corpora. -/
def corpTP (pol : Pol) (g p : List (List Tag)) (c : Cat) : ℕ :=
  ((g.zip p).map (fun gp => sentTP pol gp.1 gp.2 c)).sum

/-- Per-category corpus total of false positives. -/
def corpFP (pol : Pol) (g p : List (List Tag)) (c : Cat) : ℕ :=
  ((g.zip p).map (fun gp => sentFP pol gp.1 gp.2 c)).sum

/-- Per-category corpus total of false negatives. -/
def corpFN (pol : Pol) (g p : List (List Tag)) (c : Cat) : ℕ :=
  ((g.zip p).map (fun gp => sentFN pol gp.1 gp.2 c)).sum

/-- Modelled from the spec (4.3/4.4): the aggregate true-positive
counter, incremented per sentence by the counts of every category. -/
def aggTP (pol : Pol) (g p : List (List Tag)) : ℕ :=
  ((g.zip p).map (fun gp => (catList.map (sentTP pol gp.1 gp.2)).sum)).sum

/-- Aggregate false-positive counter, incremented per sentence. -/
def aggFP (pol : Pol) (g p : List (List Tag)) : ℕ :=
  ((g.zip p).map (fun gp => (catList.map (sentFP pol gp.1 gp.2)).sum)).sum

/-- Aggregate false-negative counter, incremented per sentence. -/
def aggFN (pol : Pol) (g p : List (List Tag)) : ℕ :=
  ((g.zip p).map (fun gp => (catList.map (sentFN pol gp.1 gp.2)).sum)).sum

/-- Modelled from the spec (4.4): precision, `0` when `TP + FP = 0`. -/
def precOf (tp fp : ℕ) : ℚ :=
  if tp + fp = 0 then 0 else (tp : ℚ) / ((tp : ℚ) + (fp : ℚ))

/-- Modelled from the spec (4.4): recall, `0` when `TP + FN = 0`. -/
def recOf (tp fn : ℕ) : ℚ :=
  if tp + fn = 0 then 0 else (tp : ℚ) / ((tp : ℚ) + (fn : ℚ))

/-- Modelled from the spec (4.4): F1 from counts, `0` when
`precision + recall = 0`. -/
def f1Of (tp fp fn : ℕ) : ℚ :=
  let p := precOf tp fp
  let r := recOf tp fn
  if p + r = 0 then 0 else 2 * p * r / (p + r)

/-- Per-category F1 over the corpus. -/
def f1Cat (pol : Pol) (g p : List (List Tag)) (c : Cat) : ℚ :=
  f1Of (corpTP pol g p c) (corpFP pol g p c) (corpFN pol g p c)

/-- Modelled from the spec (4.4): the reported average F1 for a policy,
computed from the aggregate (pooled) counters. -/
def f1Avg (pol : Pol) (g p : List (List Tag)) : ℚ :=
  f1Of (aggTP pol g p) (aggFP pol g p) (aggFN pol g p)

/-- Exactly six decimal digits of `n < 10^6`, most significant first. -/
def natDigits6 (n : ℕ) : String :=
  String.mk [Nat.digitChar (n / 100000 % 10), Nat.digitChar (n / 10000 % 10),
    Nat.digitChar (n / 1000 % 10), Nat.digitChar (n / 100 % 10),
    Nat.digitChar (n / 10 % 10), Nat.digitChar (n % 10)]

/-- Modelled from the spec (6): a nonnegative rational rendered with
exactly six decimal places, rounding to the nearest multiple of
`10 ^ (-6)`. -/
def fmt6 (v : ℚ) : String :=
  Nat.repr ((round (v * 1000000)).toNat / 1000000) ++ "." ++
    natDigits6 ((round (v * 1000000)).toNat % 1000000)

/-- Lowercased category name as it appears in the report keys. -/
def catName : Cat → String
  | Cat.Object => "object"
  | Cat.Aspect => "aspect"
  | Cat.Predicate => "predicate"

/-- One report line, `key: value` terminated by a newline. -/
def scoreLine (k : String) (v : ℚ) : String :=
  k ++ ": " ++ fmt6 v ++ "\n"

/-- Modelled from the spec (4.5/6): the full report — the strict
average, the strict per-category lines in `catList` order, the partial
average, and the partial per-category lines in the same order. -/
def report (g p : List (List Tag)) : String :=
  scoreLine "f1_average_strict" (f1Avg Pol.strict g p) ++
    String.join (catList.map (fun c =>
      scoreLine ("f1_" ++ catName c ++ "_strict") (f1Cat Pol.strict g p c))) ++
    scoreLine "f1_average" (f1Avg Pol.lenient g p) ++
    String.join (catList.map (fun c =>
      scoreLine ("f1_" ++ catName c) (f1Cat Pol.lenient g p c)))

/-- A string carries exactly six decimal places: it ends in a dot
followed by six decimal digits. -/
def sixDec (s : String) : Prop :=
  ∃ a b, s = a ++ "." ++ b ∧ b.length = 6 ∧ b.toList.all Char.isDigit

theorem splitTab_ne_nil (l : List Char) : splitTab l ≠ [] := by
  cases l with
  | nil => simp [splitTab]
  | cons c rest =>
    by_cases hc : c = '\t'
    · simp [splitTab, hc]
    · simp only [splitTab, if_neg hc]
      cases splitTab rest <;> simp

theorem splitTab_no_tab {l : List Char} (h : '\t' ∉ l) : splitTab l = [l] := by
  induction l with
  | nil => rfl
  | cons c rest ih =>
    have hc : ¬ c = '\t' := by
      intro hh
      subst hh
      exact h (List.mem_cons_self _ _)
    have hr : '\t' ∉ rest := fun hm => h (List.mem_cons_of_mem c hm)
    simp [splitTab, hc, ih hr]

theorem splitTab_tab_cons (w r : List Char) (h : '\t' ∉ w) :
    splitTab (w ++ '\t' :: r) = w :: splitTab r := by
  induction w with
  | nil => simp [splitTab]
  | cons c ws ih =>
    have hc : ¬ c = '\t' := by
      intro hh
      subst hh
      exact h (List.mem_cons_self _ _)
    have hw : '\t' ∉ ws := fun hm => h (List.mem_cons_of_mem c hm)
    simp [splitTab, hc, ih hw]

theorem splitTab_length (l : List Char) :
    (splitTab l).length = l.count '\t' + 1 := by
  induction l with
  | nil => simp [splitTab]
  | cons c rest ih =>
    by_cases hc : c = '\t'
    · subst hc
      simp [splitTab, List.count_cons, ih]
    · have hcount : (c :: rest).count '\t' = rest.count '\t' := by
        simp [List.count_cons, hc]
      cases hl : splitTab rest with
      | nil => exact absurd hl (splitTab_ne_nil rest)
      | cons hfst t =>
        have : (hfst :: t).length = rest.count '\t' + 1 := hl ▸ ih
        simp only [splitTab, if_neg hc, hl, hcount, List.length_cons] at this ⊢
        omega

theorem head?_dropWhile_false {α : Type} (p : α → Bool) :
    ∀ (l : List α) (a : α), (l.dropWhile p).head? = some a → p a = false := by
  intro l
  induction l with
  | nil =>
    intro a h
    simp at h
  | cons c cs ih =>
    intro a h
    by_cases hc : p c
    · rw [List.dropWhile_cons_of_pos hc] at h
      exact ih a h
    · rw [List.dropWhile_cons_of_neg hc] at h
      simp only [List.head?_cons, Option.some.injEq] at h
      rw [← h]
      simpa using hc

theorem pyStrip_append_newline {t : List Char}
    (h : ∀ c ∈ t, pyIsSpace c = false) : pyStrip (t ++ ['\n']) = t := by
  cases t with
  | nil => decide
  | cons c t' =>
    have hc : pyIsSpace c = false := h c (List.mem_cons_self _ _)
    have hdrop :
        List.dropWhile pyIsSpace ((c :: t') ++ ['\n']) = (c :: t') ++ ['\n'] := by
      simp [List.dropWhile_cons, hc]
    show List.rdropWhile pyIsSpace
        (List.dropWhile pyIsSpace ((c :: t') ++ ['\n'])) = c :: t'
    rw [hdrop, List.rdropWhile_concat_pos pyIsSpace (c :: t') '\n' (by decide)]
    rw [List.rdropWhile_eq_self_iff]
    intro hl
    have hm := List.getLast_mem hl
    simp [h _ hm]

theorem pyStrip_idem (l : List Char) : pyStrip (pyStrip l) = pyStrip l := by
  have hpre := List.rdropWhile_prefix pyIsSpace (List.dropWhile pyIsSpace l)
  cases hr : List.rdropWhile pyIsSpace (List.dropWhile pyIsSpace l) with
  | nil => simp [pyStrip, hr]
  | cons a as =>
    rw [hr] at hpre
    obtain ⟨s, hs⟩ := hpre
    have hha : (List.dropWhile pyIsSpace l).head? = some a := by
      rw [← hs]
      rfl
    have ha : pyIsSpace a = false := head?_dropWhile_false pyIsSpace l a hha
    show List.rdropWhile pyIsSpace
        (List.dropWhile pyIsSpace
          (List.rdropWhile pyIsSpace (List.dropWhile pyIsSpace l))) =
      List.rdropWhile pyIsSpace (List.dropWhile pyIsSpace l)
    rw [hr]
    have hd : List.dropWhile pyIsSpace (a :: as) = a :: as := by
      simp [List.dropWhile_cons, ha]
    rw [hd, ← hr, List.rdropWhile_idempotent]

theorem readGo_nil (sent tags : List (List Char)) :
    readGo [] sent tags = Except.ok [] := rfl

theorem readGo_blank {line : List Char} (h : lineIsSpace line = true)
    (rest : List (List Char)) (sent tags : List (List Char)) :
    readGo (line :: rest) sent tags =
      match readGo rest [] [] with
      | Except.ok d => Except.ok ((sent.reverse, tags.reverse) :: d)
      | Except.error e => Except.error e := by
  simp [readGo, h]

theorem readGo_pair {line w t : List Char} (hb : lineIsSpace line = false)
    (hs : splitTab line = [w, t]) (rest : List (List Char))
    (sent tags : List (List Char)) :
    readGo (line :: rest) sent tags =
      readGo rest (w :: sent) (pyStrip t :: tags) := by
  simp [readGo, hb, hs]

theorem readGo_bad {line : List Char} (hb : lineIsSpace line = false)
    (hs : ∀ w t, splitTab line ≠ [w, t]) (rest : List (List Char))
    (sent tags : List (List Char)) :
    readGo (line :: rest) sent tags =
      Except.error (ReadError.MalformedLineError line) := by
  rcases hsp : splitTab line with _ | ⟨a, _ | ⟨b, _ | ⟨c, r4⟩⟩⟩
  · simp [readGo, hb, hsp]
  · simp [readGo, hb, hsp]
  · exact absurd hsp (hs a b)
  · simp [readGo, hb, hsp]

theorem readGo_malformed :
    ∀ (lines : List (List Char)) (sent tags : List (List Char)),
      (∃ l ∈ lines, lineIsSpace l = false ∧ l.count '\t' ≠ 1) →
      ∃ bad, bad ∈ lines ∧ lineIsSpace bad = false ∧ bad.count '\t' ≠ 1 ∧
        readGo lines sent tags =
          Except.error (ReadError.MalformedLineError bad) := by
  intro lines
  induction lines with
  | nil =>
    rintro _ _ ⟨l, hl, _⟩
    cases hl
  | cons line rest ih =>
    rintro sent tags ⟨l, hl, hbl, hct⟩
    cases hline : lineIsSpace line with
    | true =>
      have hlr : l ∈ rest := by
        rcases List.mem_cons.mp hl with rfl | hmem
        · rw [hline] at hbl; cases hbl
        · exact hmem
      obtain ⟨bad, hmem, h1, h2, heq⟩ := ih [] [] ⟨l, hlr, hbl, hct⟩
      refine ⟨bad, List.mem_cons_of_mem _ hmem, h1, h2, ?_⟩
      rw [readGo_blank hline, heq]
    | false =>
      by_cases hc : line.count '\t' = 1
      · have hlen : (splitTab line).length = 2 := by
          rw [splitTab_length, hc]
        obtain ⟨w, t, hwt⟩ : ∃ w t, splitTab line = [w, t] := by
          rcases hsp : splitTab line with _ | ⟨a, _ | ⟨b, _ | ⟨c, r4⟩⟩⟩ <;>
            rw [hsp] at hlen <;> simp at hlen
          exact ⟨a, b, rfl⟩
        have hlr : l ∈ rest := by
          rcases List.mem_cons.mp hl with rfl | hmem
          · exact absurd hc hct
          · exact hmem
        obtain ⟨bad, hmem, h1, h2, heq⟩ :=
          ih (w :: sent) (pyStrip t :: tags) ⟨l, hlr, hbl, hct⟩
        exact ⟨bad, List.mem_cons_of_mem _ hmem, h1, h2, by
          rw [readGo_pair hline hwt, heq]⟩
      · have hne : ∀ w t, splitTab line ≠ [w, t] := by
          intro w t hwt
          have hlen := splitTab_length line
          rw [hwt] at hlen
          simp at hlen
          exact hc hlen
        exact ⟨line, List.mem_cons_self _ _, hline, hc,
          readGo_bad hline hne rest sent tags⟩

theorem readGo_ok_length :
    ∀ (lines : List (List Char)) (sent tags : List (List Char)) d,
      readGo lines sent tags = Except.ok d →
      d.length = lines.countP lineIsSpace := by
  intro lines
  induction lines with
  | nil =>
    intro sent tags d h
    rw [readGo_nil] at h
    cases h
    simp
  | cons line rest ih =>
    intro sent tags d h
    cases hline : lineIsSpace line with
    | true =>
      rw [readGo_blank hline] at h
      cases hr : readGo rest [] [] with
      | ok d' =>
        rw [hr] at h
        simp only at h
        cases h
        simp [List.countP_cons, hline, ih [] [] d' hr]
      | error e =>
        rw [hr] at h
        simp at h
    | false =>
      rcases hsp : splitTab line with _ | ⟨a, _ | ⟨b, _ | ⟨c, r4⟩⟩⟩
      · rw [readGo_bad hline (by simp [hsp]) rest sent tags] at h
        cases h
      · rw [readGo_bad hline (by simp [hsp]) rest sent tags] at h
        cases h
      · rw [readGo_pair hline hsp rest sent tags] at h
        simp [List.countP_cons, hline, ih _ _ d h]
      · rw [readGo_bad hline (by simp [hsp]) rest sent tags] at h
        cases h

theorem readGo_stripped :
    ∀ (lines : List (List Char)) (sent tags : List (List Char)) d,
      readGo lines sent tags = Except.ok d →
      (∀ tg ∈ tags, pyStrip tg = tg) →
      ∀ st ∈ d, ∀ tg ∈ st.2, pyStrip tg = tg := by
  intro lines
  induction lines with
  | nil =>
    intro sent tags d h _
    rw [readGo_nil] at h
    cases h
    intro st hst
    cases hst
  | cons line rest ih =>
    intro sent tags d h hacc
    cases hline : lineIsSpace line with
    | true =>
      rw [readGo_blank hline] at h
      cases hr : readGo rest [] [] with
      | ok d' =>
        rw [hr] at h
        simp only at h
        cases h
        intro st hst tg htg
        rcases List.mem_cons.mp hst with rfl | hmem
        · exact hacc tg (List.mem_reverse.mp htg)
        · exact ih [] [] d' hr (by simp) st hmem tg htg
      | error e =>
        rw [hr] at h
        simp at h
    | false =>
      rcases hsp : splitTab line with _ | ⟨a, _ | ⟨b, _ | ⟨c, r4⟩⟩⟩
      · rw [readGo_bad hline (by simp [hsp]) rest sent tags] at h
        cases h
      · rw [readGo_bad hline (by simp [hsp]) rest sent tags] at h
        cases h
      · rw [readGo_pair hline hsp rest sent tags] at h
        refine ih _ _ d h ?_
        intro tg htg
        rcases List.mem_cons.mp htg with rfl | hmem
        · exact pyStrip_idem b
        · exact hacc tg hmem
      · rw [readGo_bad hline (by simp [hsp]) rest sent tags] at h
        cases h

/-- C1 counterexample: a file whose single line `a TAB O` has no
trailing blank line; `read_dataset` returns no sentence at all, so the
accumulated final sentence is not flushed at end of file. -/
theorem C1_last_sentence_dropped_cex :
    ¬ ∃ d, read_dataset [['a', '\t', 'O']] = Except.ok d ∧
      ([['a']], [['O']]) ∈ d := by
  rintro ⟨d, hd, hm⟩
  have h0 : read_dataset [['a', '\t', 'O']] = Except.ok [] := rfl
  rw [h0] at hd
  simp only [Except.ok.injEq] at hd
  rw [← hd] at hm
  cases hm

/-- C1 (amended): `read_dataset` flushes a sentence only on a blank
line and discards pairs accumulated at end of file, so a successful run
returns exactly one sentence per whitespace-only input line. -/
theorem C1_sentences_iff_blank_lines (lines : List (List Char))
    (d : List Sent) (h : read_dataset lines = Except.ok d) :
    d.length = lines.countP lineIsSpace :=
  readGo_ok_length lines [] [] d h

theorem C1_sentences_iff_blank_lines_witness :
    read_dataset [['a', '\t', 'O', '\n'], ['\n']] =
      Except.ok [([['a']], [['O']])] ∧
    ([([['a']], [['O']])] : List Sent).length =
      ([['a', '\t', 'O', '\n'], ['\n']] : List (List Char)).countP lineIsSpace :=
  ⟨rfl, C1_sentences_iff_blank_lines _ _ rfl⟩

/-- C2 counterexample: a file consisting of one blank line; with no
accumulated pairs, the blank line still appends a sentence, so the
output contains an empty sentence. -/
theorem C2_empty_sentence_cex :
    read_dataset [['\n']] =
      Except.ok [(([] : List (List Char)), ([] : List (List Char)))] := rfl

/-- C2 (amended): a blank line always appends the current accumulated
sentence, even when no (token, tag) pairs have been accumulated, so
consecutive blank lines or a leading blank line yield empty sentences
rather than nothing. -/
theorem C2_blank_always_flushes (line : List Char)
    (rest : List (List Char)) (sent tags : List (List Char)) (d : List Sent)
    (hb : lineIsSpace line = true) (h : readGo rest [] [] = Except.ok d) :
    readGo (line :: rest) sent tags =
      Except.ok ((sent.reverse, tags.reverse) :: d) := by
  rw [readGo_blank hb, h]

theorem C2_blank_always_flushes_witness :
    readGo [['\n'], ['\n']] [] [] =
      Except.ok [(([] : List (List Char)), ([] : List (List Char))),
        (([] : List (List Char)), ([] : List (List Char)))] := by
  have h1 := C2_blank_always_flushes ['\n'] [] [] [] [] (by decide) rfl
  have h2 := C2_blank_always_flushes ['\n'] [['\n']] [] [] _ (by decide) h1
  simpa using h2

/-- C6: any input containing a non-blank line whose tab count is not
exactly one (so the line does not split into exactly two tab-delimited
fields) makes `read_dataset` fail with `MalformedLineError`: no data is
returned, the run aborts. -/
theorem C6_malformed_line_error (lines : List (List Char))
    (h : ∃ l ∈ lines, lineIsSpace l = false ∧ l.count '\t' ≠ 1) :
    ∃ bad, read_dataset lines = Except.error (ReadError.MalformedLineError bad) := by
  obtain ⟨bad, _, _, _, heq⟩ := readGo_malformed lines [] [] h
  exact ⟨bad, heq⟩

theorem C6_malformed_line_error_witness :
    ∃ bad, read_dataset [['a', '\t', 'O', '\n'], ['a', 'b', '\n']] =
      Except.error (ReadError.MalformedLineError bad) :=
  C6_malformed_line_error _ ⟨['a', 'b', '\n'], by decide, by decide, by decide⟩

/-- C10: on a well-formed non-blank line, the substring before the tab
is stored verbatim as the token and the substring after the tab is
stored stripped of surrounding whitespace; consequently every tag in a
successful `read_dataset` output is a `pyStrip` fixed point, i.e. has
no leading or trailing whitespace. -/
theorem C10_token_verbatim_tag_stripped :
    (∀ (w t : List Char) (rest sent tags : List (List Char)),
      '\t' ∉ w → '\t' ∉ t → lineIsSpace (w ++ '\t' :: t) = false →
      readGo ((w ++ '\t' :: t) :: rest) sent tags =
        readGo rest (w :: sent) (pyStrip t :: tags)) ∧
    (∀ (lines : List (List Char)) (d : List Sent),
      read_dataset lines = Except.ok d →
      ∀ st ∈ d, ∀ tg ∈ st.2, pyStrip tg = tg) := by
  constructor
  · intro w t rest sent tags hw ht hb
    exact readGo_pair hb
      (by rw [splitTab_tab_cons _ _ hw, splitTab_no_tab ht]) rest sent tags
  · intro lines d h
    exact readGo_stripped lines [] [] d h (by simp)

theorem C10_token_verbatim_tag_stripped_witness :
    readGo ((['a'] ++ '\t' :: [' ', 'O', '\n']) :: []) [] [] =
      readGo [] [['a']] [pyStrip [' ', 'O', '\n']] ∧
    ∀ st ∈ ([([['a']], [['O']])] : List Sent), ∀ tg ∈ st.2, pyStrip tg = tg :=
  ⟨C10_token_verbatim_tag_stripped.1 ['a'] [' ', 'O', '\n'] [] [] []
      (by decide) (by decide) (by decide),
   C10_token_verbatim_tag_stripped.2 [['a', '\t', 'O', '\n'], ['\n']] _
      rfl⟩

theorem readGo_writeSentence :
    ∀ (toks : List (List Char)) (tags : List (List Char))
      (rest : List (List Char)) (a b : List (List Char)) (d : List Sent),
      toks.length = tags.length →
      (∀ w ∈ toks, '\t' ∉ w) →
      (∀ tg ∈ tags, tg ≠ [] ∧ ∀ c ∈ tg, pyIsSpace c = false) →
      readGo rest [] [] = Except.ok d →
      readGo (writeSentence toks tags ++ rest) a b =
        Except.ok ((a.reverse ++ toks, b.reverse ++ tags) :: d) := by
  intro toks
  induction toks with
  | nil =>
    intro tags rest a b d hlen htok htag hrest
    cases tags with
    | cons tg ts => simp at hlen
    | nil =>
      show readGo (writeSentence [] [] ++ rest) a b = _
      have hws : writeSentence [] [] = [['\n']] := rfl
      rw [hws, List.cons_append, List.nil_append,
        readGo_blank (by decide : lineIsSpace ['\n'] = true), hrest]
      simp
  | cons w ws ih =>
    intro tags rest a b d hlen htok htag hrest
    cases tags with
    | nil => simp at hlen
    | cons tg ts =>
      have hw : '\t' ∉ w := htok w (List.mem_cons_self _ _)
      obtain ⟨htgne, htgns⟩ := htag tg (List.mem_cons_self _ _)
      have hnb : lineIsSpace (w ++ '\t' :: (tg ++ ['\n'])) = false := by
        cases tg with
        | nil => exact absurd rfl htgne
        | cons c0 t0 =>
          have hc0 : pyIsSpace c0 = false := htgns c0 (List.mem_cons_self _ _)
          simp only [lineIsSpace, Bool.and_eq_false_iff]
          right
          rw [List.all_eq_false]
          exact ⟨c0, by simp, by simp [hc0]⟩
      have hsp : splitTab (w ++ '\t' :: (tg ++ ['\n'])) = [w, tg ++ ['\n']] := by
        rw [splitTab_tab_cons _ _ hw, splitTab_no_tab]
        intro hmem
        rcases List.mem_append.mp hmem with h1 | h1
        · exact absurd (htgns '\t' h1) (by decide)
        · simp at h1
      have hstrip : pyStrip (tg ++ ['\n']) = tg := pyStrip_append_newline htgns
      have hwrite : writeSentence (w :: ws) (tg :: ts) =
          (w ++ '\t' :: (tg ++ ['\n'])) :: writeSentence ws ts := by
        simp [writeSentence]
      rw [hwrite, List.cons_append, readGo_pair hnb hsp, hstrip]
      rw [ih ts rest (w :: a) (tg :: b) d (by simpa using hlen)
        (fun x hx => htok x (List.mem_cons_of_mem _ hx))
        (fun x hx => htag x (List.mem_cons_of_mem _ hx)) hrest]
      simp

/-- C8: when every token is tab-free and newline-free and every tag is
non-empty and whitespace-free (as holds for the tags of the closed tag
set written by the inference loop), reading back the file written by
the test-file writer returns exactly the original sentence list: the
write-then-read round trip is the identity. -/
theorem C8_write_read_roundtrip (data : List Sent)
    (hlen : ∀ st ∈ data, st.1.length = st.2.length)
    (htok : ∀ st ∈ data, ∀ w ∈ st.1, '\t' ∉ w ∧ '\n' ∉ w)
    (htag : ∀ st ∈ data, ∀ tg ∈ st.2, tg ≠ [] ∧ ∀ c ∈ tg, pyIsSpace c = false) :
    read_dataset (writeData data) = Except.ok data := by
  induction data with
  | nil => rfl
  | cons st rest ih =>
    have hres : readGo (writeData rest) [] [] = Except.ok rest :=
      ih (fun s hs => hlen s (List.mem_cons_of_mem _ hs))
        (fun s hs => htok s (List.mem_cons_of_mem _ hs))
        (fun s hs => htag s (List.mem_cons_of_mem _ hs))
    show readGo (writeData (st :: rest)) [] [] = _
    have hsplit : writeData (st :: rest) =
        writeSentence st.1 st.2 ++ writeData rest := by
      simp [writeData]
    rw [hsplit]
    have hmain := readGo_writeSentence st.1 st.2 (writeData rest) [] [] rest
      (hlen st (List.mem_cons_self _ _))
      (fun x hx => (htok st (List.mem_cons_self _ _) x hx).1)
      (htag st (List.mem_cons_self _ _)) hres
    simpa using hmain

theorem C8_write_read_roundtrip_witness :
    read_dataset (writeData
      [([['h', 'i']], [['O']]),
       ([['a'], ['b']], [['B', '-', 'O', 'b', 'j', 'e', 'c', 't'], ['O']])]) =
      Except.ok
        [([['h', 'i']], [['O']]),
         ([['a'], ['b']], [['B', '-', 'O', 'b', 'j', 'e', 'c', 't'], ['O']])] :=
  C8_write_read_roundtrip _ (by decide) (by decide) (by decide)

theorem lookup_mem {α β : Type} [BEq α] [LawfulBEq α] :
    ∀ (l : List (α × β)) (a : α) (b : β), l.lookup a = some b → (a, b) ∈ l := by
  intro l
  induction l with
  | nil =>
    intro a b h
    simp [List.lookup] at h
  | cons p ps ih =>
    intro a b h
    obtain ⟨k, v⟩ := p
    cases hak : a == k with
    | true =>
      rw [List.lookup, hak] at h
      simp only [Option.some.injEq] at h
      have : a = k := eq_of_beq hak
      subst this
      rw [← h]
      exact List.mem_cons_self _ _
    | false =>
      rw [List.lookup, hak] at h
      exact List.mem_cons_of_mem _ (ih a b h)

/-- C9: `idx_to_tag` inverts `tag_to_ix` on the closed seven-element
tag set, and every tag the inference loop can write (any successful
`idx_to_tag` lookup result) is a member of that closed set. -/
theorem C9_idx_to_tag_inverse :
    (∀ t ∈ tagSet, ∃ i, tagToIx t = some i ∧ idxToTag i = some t) ∧
    (∀ (i : ℕ) (t : String), idxToTag i = some t → t ∈ tagSet) := by
  constructor
  · intro t ht
    simp only [tagSet, tag_to_ix, List.map_cons, List.map_nil,
      List.mem_cons, List.not_mem_nil, or_false] at ht
    rcases ht with rfl | rfl | rfl | rfl | rfl | rfl | rfl <;>
      exact ⟨_, rfl, rfl⟩
  · intro i t h
    have hmem := lookup_mem idx_to_tag i t h
    have he : idx_to_tag.map Prod.snd = tagSet := rfl
    rw [← he]
    exact List.mem_map_of_mem Prod.snd hmem

theorem C9_idx_to_tag_inverse_witness :
    (∃ i, tagToIx "B-Aspect" = some i ∧ idxToTag i = some "B-Aspect") ∧
    "I-Object" ∈ tagSet :=
  ⟨C9_idx_to_tag_inverse.1 "B-Aspect" (by decide),
   C9_idx_to_tag_inverse.2 2 "I-Object" rfl⟩

/-- C3 counterexample: scanning `I-Aspect` while a span of the
different category `Object` is open does not "close nothing": the open
`Object` span is closed and emitted, and the full extraction of
`[B-Object, I-Aspect]` therefore contains the closed `Object` span next
to the new single-token `Aspect` span. -/
theorem C3_cross_category_closes_cex :
    (bioStep (some (Cat.Object, 0)) (Tag.I Cat.Aspect) 1).1 =
      [⟨Cat.Object, 0, 0⟩] ∧
    (bioStep (some (Cat.Object, 0)) (Tag.I Cat.Aspect) 1).1 ≠ ([] : List Span) ∧
    extractSpans [Tag.B Cat.Object, Tag.I Cat.Aspect] =
      [⟨Cat.Object, 0, 0⟩, ⟨Cat.Aspect, 1, 1⟩] := by
  decide

/-- C3 (amended): scanning an `I-<cat>` tag never raises an error.
With no open span it closes nothing and starts a new span of category
`<cat>` at the current index; with an open span of a different category
it closes (emits) that open span and starts a new span of category
`<cat>` at the current index, so the malformed continuation degrades to
a span of its own rather than aborting the run. -/
theorem C3_dangling_continuation_policy (c : Cat) (i : ℕ) :
    (bioStep none (Tag.I c) i = ([], some (c, i))) ∧
    (∀ c' s, c' ≠ c →
      bioStep (some (c', s)) (Tag.I c) i =
        ([⟨c', s, i - 1⟩], some (c, i))) := by
  constructor
  · rfl
  · intro c' s hne
    simp [bioStep, closeAt, hne]

theorem C3_dangling_continuation_policy_witness :
    bioStep none (Tag.I Cat.Object) 5 = ([], some (Cat.Object, 5)) ∧
    bioStep (some (Cat.Aspect, 2)) (Tag.I Cat.Object) 4 =
      ([⟨Cat.Aspect, 2, 3⟩], some (Cat.Object, 4)) :=
  ⟨(C3_dangling_continuation_policy Cat.Object 5).1,
   (C3_dangling_continuation_policy Cat.Object 4).2 Cat.Aspect 2 (by decide)⟩

theorem scan_open_head :
    ∀ (tags : List Tag) (i : ℕ) (c : Cat) (s : ℕ),
      ∃ E rest, scan tags i (some (c, s)) = ⟨c, s, E⟩ :: rest ∧ i ≤ E + 1 := by
  intro tags
  induction tags with
  | nil =>
    intro i c s
    exact ⟨i - 1, [], rfl, by omega⟩
  | cons t rest ih =>
    intro i c s
    cases t with
    | O =>
      refine ⟨i - 1, scan rest (i + 1) none, ?_, by omega⟩
      simp [scan, bioStep, closeAt]
    | B c2 =>
      refine ⟨i - 1, scan rest (i + 1) (some (c2, i)), ?_, by omega⟩
      simp [scan, bioStep, closeAt]
    | I c2 =>
      by_cases hc : c = c2
      · subst hc
        obtain ⟨E, r, hE, hle⟩ := ih (i + 1) c s
        refine ⟨E, r, ?_, by omega⟩
        simp [scan, bioStep, hE]
      · refine ⟨i - 1, scan rest (i + 1) (some (c2, i)), ?_, by omega⟩
        simp [scan, bioStep, closeAt, hc]

theorem scan_none_start :
    ∀ (tags : List Tag) (i : ℕ) (sp : Span) (l : List Span),
      scan tags i none = sp :: l → i ≤ sp.start := by
  intro tags
  induction tags with
  | nil =>
    intro i sp l h
    simp [scan, closeAt] at h
  | cons t rest ih =>
    intro i sp l h
    cases t with
    | O =>
      have hs : scan (Tag.O :: rest) i none = scan rest (i + 1) none := by
        simp [scan, bioStep, closeAt]
      rw [hs] at h
      have := ih (i + 1) sp l h
      omega
    | B c =>
      have hs : scan (Tag.B c :: rest) i none =
          scan rest (i + 1) (some (c, i)) := by
        simp [scan, bioStep, closeAt]
      rw [hs] at h
      obtain ⟨E, r, hE, _⟩ := scan_open_head rest (i + 1) c i
      rw [hE] at h
      injection h with h1 h2
      rw [← h1]
    | I c =>
      have hs : scan (Tag.I c :: rest) i none =
          scan rest (i + 1) (some (c, i)) := by
        simp [scan, bioStep, closeAt]
      rw [hs] at h
      obtain ⟨E, r, hE, _⟩ := scan_open_head rest (i + 1) c i
      rw [hE] at h
      injection h with h1 h2
      rw [← h1]

theorem encodeFrom_O (i n : ℕ) (spans : List Span) (hn : i < n)
    (hhd : ∀ sp l, spans = sp :: l → i + 1 ≤ sp.start) :
    encodeFrom i n spans = Tag.O :: encodeFrom (i + 1) n spans := by
  cases spans with
  | nil =>
    show List.replicate (n - i) Tag.O = Tag.O :: List.replicate (n - (i + 1)) Tag.O
    rw [show n - i = (n - (i + 1)) + 1 from by omega, List.replicate_succ]
  | cons sp l =>
    have hs := hhd sp l rfl
    simp only [encodeFrom]
    rw [show sp.start - i = (sp.start - (i + 1)) + 1 from by omega,
      List.replicate_succ]
    simp [List.cons_append]

theorem scan_encode :
    ∀ (tags : List Tag) (i : ℕ),
      (admissible none tags = true →
        encodeFrom i (i + tags.length) (scan tags i none) = tags) ∧
      (∀ c s, s < i → admissible (some c) tags = true →
        ∃ E rest, scan tags i (some (c, s)) = ⟨c, s, E⟩ :: rest ∧ i ≤ E + 1 ∧
          List.replicate (E + 1 - i) (Tag.I c) ++
            encodeFrom (E + 1) (i + tags.length) rest = tags) := by
  intro tags
  induction tags with
  | nil =>
    intro i
    constructor
    · intro _
      simp [scan, closeAt, encodeFrom]
    · intro c s hsi _
      refine ⟨i - 1, [], rfl, by omega, ?_⟩
      rw [show i - 1 + 1 = i from by omega]
      simp [encodeFrom]
  | cons t rest IH =>
    intro i
    constructor
    · intro hadm
      cases t with
      | O =>
        have hadm' : admissible none rest = true := by
          simpa [admissible, okNext, stAfter] using hadm
        have hscan : scan (Tag.O :: rest) i none = scan rest (i + 1) none := by
          simp [scan, bioStep, closeAt]
        rw [hscan]
        rw [encodeFrom_O i (i + (Tag.O :: rest).length) (scan rest (i + 1) none)
          (by simp) (fun sp l h => scan_none_start rest (i + 1) sp l h)]
        have hn : i + (Tag.O :: rest).length = (i + 1) + rest.length := by
          simp
          omega
        rw [hn]
        rw [(IH (i + 1)).1 hadm']
      | B c =>
        have hadm' : admissible (some c) rest = true := by
          simpa [admissible, okNext, stAfter] using hadm
        have hscan : scan (Tag.B c :: rest) i none =
            scan rest (i + 1) (some (c, i)) := by
          simp [scan, bioStep, closeAt]
        rw [hscan]
        obtain ⟨E, r, hE, hle, henc⟩ := (IH (i + 1)).2 c i (by omega) hadm'
        rw [hE]
        show List.replicate ((⟨c, i, E⟩ : Span).start - i) Tag.O ++
            [Tag.B (⟨c, i, E⟩ : Span).cat] ++
            List.replicate ((⟨c, i, E⟩ : Span).stop - (⟨c, i, E⟩ : Span).start)
              (Tag.I (⟨c, i, E⟩ : Span).cat) ++
            encodeFrom ((⟨c, i, E⟩ : Span).stop + 1)
              (i + (Tag.B c :: rest).length) r = Tag.B c :: rest
        simp only [Nat.sub_self, List.replicate, List.nil_append,
          List.singleton_append, List.cons_append]
        have hn : i + (Tag.B c :: rest).length = (i + 1) + rest.length := by
          simp
          omega
        rw [hn]
        have hEi : E - i = E + 1 - (i + 1) := by omega
        rw [hEi, henc]
      | I c =>
        exfalso
        simp [admissible, okNext] at hadm
    · intro c s hsi hadm
      cases t with
      | O =>
        have hadm' : admissible none rest = true := by
          simpa [admissible, okNext, stAfter] using hadm
        have hscan : scan (Tag.O :: rest) i (some (c, s)) =
            ⟨c, s, i - 1⟩ :: scan rest (i + 1) none := by
          simp [scan, bioStep, closeAt]
        refine ⟨i - 1, scan rest (i + 1) none, hscan, by omega, ?_⟩
        rw [show i - 1 + 1 = i from by omega]
        simp only [Nat.sub_self, List.replicate, List.nil_append]
        rw [encodeFrom_O i (i + (Tag.O :: rest).length) (scan rest (i + 1) none)
          (by simp) (fun sp l h => scan_none_start rest (i + 1) sp l h)]
        have hn : i + (Tag.O :: rest).length = (i + 1) + rest.length := by
          simp
          omega
        rw [hn]
        rw [(IH (i + 1)).1 hadm']
      | B c2 =>
        have hadm' : admissible (some c2) rest = true := by
          simpa [admissible, okNext, stAfter] using hadm
        have hscan : scan (Tag.B c2 :: rest) i (some (c, s)) =
            ⟨c, s, i - 1⟩ :: scan rest (i + 1) (some (c2, i)) := by
          simp [scan, bioStep, closeAt]
        refine ⟨i - 1, scan rest (i + 1) (some (c2, i)), hscan, by omega, ?_⟩
        rw [show i - 1 + 1 = i from by omega]
        simp only [Nat.sub_self, List.replicate, List.nil_append]
        obtain ⟨E, r, hE, hle, henc⟩ := (IH (i + 1)).2 c2 i (by omega) hadm'
        rw [hE]
        show List.replicate ((⟨c2, i, E⟩ : Span).start - i) Tag.O ++
            [Tag.B (⟨c2, i, E⟩ : Span).cat] ++
            List.replicate ((⟨c2, i, E⟩ : Span).stop - (⟨c2, i, E⟩ : Span).start)
              (Tag.I (⟨c2, i, E⟩ : Span).cat) ++
            encodeFrom ((⟨c2, i, E⟩ : Span).stop + 1)
              (i + (Tag.B c2 :: rest).length) r = Tag.B c2 :: rest
        simp only [Nat.sub_self, List.replicate, List.nil_append,
          List.singleton_append, List.cons_append]
        have hn : i + (Tag.B c2 :: rest).length = (i + 1) + rest.length := by
          simp
          omega
        rw [hn]
        have hEi : E - i = E + 1 - (i + 1) := by omega
        rw [hEi, henc]
      | I c2 =>
        by_cases hc : c = c2
        · subst hc
          have hadm' : admissible (some c) rest = true := by
            simpa [admissible, okNext, stAfter] using hadm
          have hscan : scan (Tag.I c :: rest) i (some (c, s)) =
              scan rest (i + 1) (some (c, s)) := by
            simp [scan, bioStep]
          obtain ⟨E, r, hE, hle, henc⟩ := (IH (i + 1)).2 c s (by omega) hadm'
          obtain ⟨E2, r2, hE2, hle2⟩ := scan_open_head rest (i + 1) c s
          rw [hE] at hE2
          injection hE2 with hh1 hh2
          have hEeq : E = E2 := congrArg Span.stop hh1
          have hEi : i ≤ E := by omega
          refine ⟨E, r, by rw [hscan, hE], by omega, ?_⟩
          rw [show E + 1 - i = (E + 1 - (i + 1)) + 1 from by omega,
            List.replicate_succ, List.cons_append]
          have hn : i + (Tag.I c :: rest).length = (i + 1) + rest.length := by
            simp
            omega
          rw [hn, henc]
        · exfalso
          simp [admissible, okNext, hc] at hadm

/-- C7: for every tag sequence with no dangling `I-` tag (every
`I-<cat>` immediately preceded by a `B-<cat>` or `I-<cat>` of the same
category), re-encoding the spans produced by the Span Extractor yields
exactly the original tag sequence. -/
theorem C7_decode_encode_roundtrip (tags : List Tag)
    (h : noDangling tags = true) :
    encodeSpans tags.length (extractSpans tags) = tags := by
  have hmain := (scan_encode tags 0).1 h
  simpa [encodeSpans, extractSpans] using hmain

theorem C7_decode_encode_roundtrip_witness :
    noDangling [Tag.B Cat.Object, Tag.I Cat.Object, Tag.O, Tag.B Cat.Aspect,
      Tag.I Cat.Aspect, Tag.I Cat.Aspect] = true ∧
    encodeSpans ([Tag.B Cat.Object, Tag.I Cat.Object, Tag.O, Tag.B Cat.Aspect,
        Tag.I Cat.Aspect, Tag.I Cat.Aspect] : List Tag).length
      (extractSpans [Tag.B Cat.Object, Tag.I Cat.Object, Tag.O, Tag.B Cat.Aspect,
        Tag.I Cat.Aspect, Tag.I Cat.Aspect]) =
      [Tag.B Cat.Object, Tag.I Cat.Object, Tag.O, Tag.B Cat.Aspect,
        Tag.I Cat.Aspect, Tag.I Cat.Aspect] :=
  ⟨by decide, C7_decode_encode_roundtrip _ (by decide)⟩

theorem list_sum_map_add {α : Type} (l : List α) (f g : α → ℕ) :
    (l.map (fun a => f a + g a)).sum = (l.map f).sum + (l.map g).sum := by
  induction l with
  | nil => simp
  | cons a as ih =>
    simp only [List.map_cons, List.sum_cons, ih]
    omega

theorem list_sum_map_zero {β : Type} (l : List β) :
    (l.map (fun _ => (0 : ℕ))).sum = 0 := by
  induction l with
  | nil => rfl
  | cons b bs ih => simp [ih]

theorem list_sum_comm {α β : Type} (l1 : List α) (l2 : List β) (f : α → β → ℕ) :
    (l1.map (fun a => (l2.map (f a)).sum)).sum =
      (l2.map (fun b => (l1.map (fun a => f a b)).sum)).sum := by
  induction l1 with
  | nil =>
    simp only [List.map_nil, List.sum_nil]
    exact (list_sum_map_zero l2).symm
  | cons a as ih =>
    simp only [List.map_cons, List.sum_cons, ih]
    rw [list_sum_map_add l2 (fun b => f a b)
      (fun b => (as.map (fun x => f x b)).sum)]

/-- C4: for every pair of corpora and each policy, the aggregate
counters (incremented per sentence across all categories) equal the
componentwise sums over categories of the per-category
true-positive/false-positive/false-negative totals, and the reported
average F1 is the F1 of these pooled totals; on an asymmetric example
the pooled F1 differs from the arithmetic mean of the per-category F1
values. -/
theorem C4_micro_average_aggregation :
    (∀ (pol : Pol) (g p : List (List Tag)),
      aggTP pol g p = (catList.map (corpTP pol g p)).sum ∧
      aggFP pol g p = (catList.map (corpFP pol g p)).sum ∧
      aggFN pol g p = (catList.map (corpFN pol g p)).sum ∧
      f1Avg pol g p =
        f1Of ((catList.map (corpTP pol g p)).sum)
          ((catList.map (corpFP pol g p)).sum)
          ((catList.map (corpFN pol g p)).sum)) ∧
    f1Avg Pol.strict [[Tag.B Cat.Object, Tag.B Cat.Aspect]]
        [[Tag.B Cat.Object, Tag.B Cat.Predicate]] ≠
      (catList.map (f1Cat Pol.strict [[Tag.B Cat.Object, Tag.B Cat.Aspect]]
        [[Tag.B Cat.Object, Tag.B Cat.Predicate]])).sum / 3 := by
  constructor
  · intro pol g p
    have h1 : aggTP pol g p = (catList.map (corpTP pol g p)).sum := by
      simp only [aggTP, corpTP]
      exact list_sum_comm (g.zip p) catList
        (fun gp c => sentTP pol gp.1 gp.2 c)
    have h2 : aggFP pol g p = (catList.map (corpFP pol g p)).sum := by
      simp only [aggFP, corpFP]
      exact list_sum_comm (g.zip p) catList
        (fun gp c => sentFP pol gp.1 gp.2 c)
    have h3 : aggFN pol g p = (catList.map (corpFN pol g p)).sum := by
      simp only [aggFN, corpFN]
      exact list_sum_comm (g.zip p) catList
        (fun gp c => sentFN pol gp.1 gp.2 c)
    refine ⟨h1, h2, h3, ?_⟩
    rw [f1Avg, h1, h2, h3]
  · have e1 : aggTP Pol.strict [[Tag.B Cat.Object, Tag.B Cat.Aspect]]
        [[Tag.B Cat.Object, Tag.B Cat.Predicate]] = 1 := by decide
    have e2 : aggFP Pol.strict [[Tag.B Cat.Object, Tag.B Cat.Aspect]]
        [[Tag.B Cat.Object, Tag.B Cat.Predicate]] = 1 := by decide
    have e3 : aggFN Pol.strict [[Tag.B Cat.Object, Tag.B Cat.Aspect]]
        [[Tag.B Cat.Object, Tag.B Cat.Predicate]] = 1 := by decide
    have a1 : corpTP Pol.strict [[Tag.B Cat.Object, Tag.B Cat.Aspect]]
        [[Tag.B Cat.Object, Tag.B Cat.Predicate]] Cat.Aspect = 0 := by decide
    have a2 : corpFP Pol.strict [[Tag.B Cat.Object, Tag.B Cat.Aspect]]
        [[Tag.B Cat.Object, Tag.B Cat.Predicate]] Cat.Aspect = 0 := by decide
    have a3 : corpFN Pol.strict [[Tag.B Cat.Object, Tag.B Cat.Aspect]]
        [[Tag.B Cat.Object, Tag.B Cat.Predicate]] Cat.Aspect = 1 := by decide
    have o1 : corpTP Pol.strict [[Tag.B Cat.Object, Tag.B Cat.Aspect]]
        [[Tag.B Cat.Object, Tag.B Cat.Predicate]] Cat.Object = 1 := by decide
    have o2 : corpFP Pol.strict [[Tag.B Cat.Object, Tag.B Cat.Aspect]]
        [[Tag.B Cat.Object, Tag.B Cat.Predicate]] Cat.Object = 0 := by decide
    have o3 : corpFN Pol.strict [[Tag.B Cat.Object, Tag.B Cat.Aspect]]
        [[Tag.B Cat.Object, Tag.B Cat.Predicate]] Cat.Object = 0 := by decide
    have p1 : corpTP Pol.strict [[Tag.B Cat.Object, Tag.B Cat.Aspect]]
        [[Tag.B Cat.Object, Tag.B Cat.Predicate]] Cat.Predicate = 0 := by decide
    have p2 : corpFP Pol.strict [[Tag.B Cat.Object, Tag.B Cat.Aspect]]
        [[Tag.B Cat.Object, Tag.B Cat.Predicate]] Cat.Predicate = 1 := by decide
    have p3 : corpFN Pol.strict [[Tag.B Cat.Object, Tag.B Cat.Aspect]]
        [[Tag.B Cat.Object, Tag.B Cat.Predicate]] Cat.Predicate = 0 := by decide
    simp only [f1Avg, f1Cat, catList, List.map_cons, List.map_nil,
      List.sum_cons, List.sum_nil, e1, e2, e3, a1, a2, a3, o1, o2, o3,
      p1, p2, p3]
    norm_num [f1Of, precOf, recOf]

theorem string_data_ext {a b : String} (h : a.data = b.data) : a = b := by
  cases a
  cases b
  exact congrArg String.mk h

theorem digitChar_isDigit : ∀ n : ℕ, n < 10 → (Nat.digitChar n).isDigit = true := by
  decide

theorem sixDec_fmt6 (v : ℚ) : sixDec (fmt6 v) := by
  refine ⟨Nat.repr ((round (v * 1000000)).toNat / 1000000),
    natDigits6 ((round (v * 1000000)).toNat % 1000000), rfl, rfl, ?_⟩
  have hd : ∀ k : ℕ, (Nat.digitChar (k % 10)).isDigit = true := fun k =>
    digitChar_isDigit (k % 10) (Nat.mod_lt _ (by norm_num))
  simp [natDigits6, String.toList, hd]

/-- C5: the report is exactly these eight lines in this order — the
strict average, the strict per-category lines in the fixed lowercased
category order (aspect, object, predicate), the partial average, and
the partial per-category lines in the same order; each line has the
form `key: value` terminated by a newline, and every value carries
exactly six decimal places. -/
theorem C5_report_format (g p : List (List Tag)) :
    report g p =
      scoreLine "f1_average_strict" (f1Avg Pol.strict g p) ++
      scoreLine "f1_aspect_strict" (f1Cat Pol.strict g p Cat.Aspect) ++
      scoreLine "f1_object_strict" (f1Cat Pol.strict g p Cat.Object) ++
      scoreLine "f1_predicate_strict" (f1Cat Pol.strict g p Cat.Predicate) ++
      scoreLine "f1_average" (f1Avg Pol.lenient g p) ++
      scoreLine "f1_aspect" (f1Cat Pol.lenient g p Cat.Aspect) ++
      scoreLine "f1_object" (f1Cat Pol.lenient g p Cat.Object) ++
      scoreLine "f1_predicate" (f1Cat Pol.lenient g p Cat.Predicate) ∧
    (∀ (k : String) (v : ℚ), scoreLine k v = k ++ ": " ++ fmt6 v ++ "\n") ∧
    (∀ (pol : Pol) (c : Cat), sixDec (fmt6 (f1Cat pol g p c))) ∧
    (∀ pol : Pol, sixDec (fmt6 (f1Avg pol g p))) := by
  refine ⟨?_, fun k v => rfl, fun pol c => sixDec_fmt6 _, fun pol => sixDec_fmt6 _⟩
  apply string_data_ext
  simp [report, scoreLine, catList, catName, List.append_assoc]
